import Mathlib

/-!
# Shallow embedding of `const-tweaker` (src/lib.rs)

The crate keeps two global concurrent maps (`__F64S : DashMap<&str, f64>`,
`__BOOLS : DashMap<&str, bool>`).  The `tweak!` macro generates, per
constant, a `get` that looks the key up and, on a miss, inserts the
compiled-in default and returns it.  An HTTP control plane offers a page
renderer (`f64s`, `bools`) and two set routes (`handle_set_f64`,
`handle_set_bool`) that decode a JSON `{key, value}` body with
`.expect("Could not decode JSON")` and then call `DashMap::alter`,
which modifies an entry only if it already exists.  `run` spawns a
thread that calls `.expect("Running web server failed")` on the listen
result and itself returns `Ok(())` unconditionally.

The maps are embedded as association lists over `String` keys.  The Rust
code never computes with the stored scalars (it only stores, copies and
prints them), so the value type is a parameter `α`; the registry claims
are proved for every `α`, which covers both `f64` and `bool` instances.
-/

namespace ConstTweaker

/-- Association-list model of one `DashMap<&'static str, T>`.  The crate
maintains (and dashmap guarantees) at most one entry per key; theorems
that need it take the key-nodup invariant as a hypothesis. -/
abbrev RMap (α : Type) := List (String × α)

/-- `DashMap::get`: the stored value for `k`, if an entry exists. -/
def lookupMap {α : Type} (k : String) : RMap α → Option α
  | [] => none
  | (k', v) :: t => if k' = k then some v else lookupMap k t

/-- Whether the map has an entry for `k`. -/
def containsKey {α : Type} (k : String) (m : RMap α) : Bool :=
  (lookupMap k m).isSome

/-- `DashMap::insert`: replaces the entry for `k` if present, otherwise
adds one. -/
def insertMap {α : Type} (k : String) (v : α) (m : RMap α) : RMap α :=
  if containsKey k m then
    m.map (fun e => if e.1 = k then (k, v) else e)
  else
    m ++ [(k, v)]

/-- `DashMap::alter(&key, |_, _| value)`: overwrites the entry for `k`
if one exists, and does nothing otherwise (dashmap's `alter` does not
create entries). -/
def alterMap {α : Type} (k : String) (v : α) (m : RMap α) : RMap α :=
  m.map (fun e => if e.1 = k then (k, v) else e)

/-- The accessor generated by `tweak!` (`$name::get`, src/lib.rs:68-82):
look the key up; on a hit return the stored value unchanged, on a miss
insert the default and return it.  Returns the value together with the
resulting map state. -/
def tweakGet {α : Type} (k : String) (d : α) (m : RMap α) : α × RMap α :=
  match lookupMap k m with
  | some v => (v, m)
  | none => (d, insertMap k d m)

/-- The keys currently present, in storage order. -/
def keysOf {α : Type} (m : RMap α) : List String :=
  m.map Prod.fst

/-- How many entries carry the key `k`. -/
def countKey {α : Type} (k : String) (m : RMap α) : Nat :=
  (m.filter (fun e => e.1 = k)).length

/-! ## Basic lemmas about the map operations -/

theorem lookupMap_cons {α : Type} (k a : String) (b : α) (t : RMap α) :
    lookupMap k ((a, b) :: t) = if a = k then some b else lookupMap k t := rfl

theorem alterMap_cons {α : Type} (k : String) (v : α) (a : String) (b : α)
    (t : RMap α) :
    alterMap k v ((a, b) :: t)
      = (if a = k then (k, v) else (a, b)) :: alterMap k v t := by
  unfold alterMap
  rw [List.map_cons]

theorem containsKey_false_iff {α : Type} (k : String) (m : RMap α) :
    containsKey k m = false ↔ lookupMap k m = none := by
  unfold containsKey
  cases lookupMap k m <;> simp

theorem containsKey_true_iff {α : Type} (k : String) (m : RMap α) :
    containsKey k m = true ↔ ∃ v, lookupMap k m = some v := by
  unfold containsKey
  cases lookupMap k m <;> simp

/-- `alter` on an absent key is the identity. -/
theorem alterMap_absent {α : Type} {k : String} (v : α) {m : RMap α}
    (h : containsKey k m = false) : alterMap k v m = m := by
  rw [containsKey_false_iff] at h
  induction m with
  | nil => rfl
  | cons e t ih =>
    obtain ⟨a, b⟩ := e
    rw [lookupMap_cons] at h
    by_cases ha : a = k
    · rw [if_pos ha] at h
      exact absurd h (by simp)
    · rw [if_neg ha] at h
      rw [alterMap_cons, if_neg ha, ih h]

theorem lookupMap_alterMap_of_some {α : Type} {k : String} (v : α)
    {m : RMap α} {w : α} (h : lookupMap k m = some w) :
    lookupMap k (alterMap k v m) = some v := by
  induction m with
  | nil => exact absurd h (by simp [lookupMap])
  | cons e t ih =>
    obtain ⟨a, b⟩ := e
    rw [lookupMap_cons] at h
    by_cases ha : a = k
    · rw [alterMap_cons, if_pos ha, lookupMap_cons, if_pos rfl]
    · rw [if_neg ha] at h
      rw [alterMap_cons, if_neg ha, lookupMap_cons, if_neg ha]
      exact ih h

/-- `alter` stores the new value when an entry exists. -/
theorem lookupMap_alterMap_self {α : Type} {k : String} (v : α) {m : RMap α}
    (h : containsKey k m = true) : lookupMap k (alterMap k v m) = some v := by
  obtain ⟨w, hw⟩ := (containsKey_true_iff k m).mp h
  exact lookupMap_alterMap_of_some v hw

/-- `alter` for `k` does not disturb any other key. -/
theorem lookupMap_alterMap_ne {α : Type} {k k' : String} (v : α) (m : RMap α)
    (h : k' ≠ k) : lookupMap k' (alterMap k v m) = lookupMap k' m := by
  induction m with
  | nil => rfl
  | cons e t ih =>
    obtain ⟨a, b⟩ := e
    by_cases ha : a = k
    · have hk : ¬ (k = k') := fun hk => h hk.symm
      have ha' : ¬ (a = k') := fun hk => h (ha ▸ hk).symm
      rw [alterMap_cons, if_pos ha, lookupMap_cons, if_neg hk,
        lookupMap_cons, if_neg ha', ih]
    · rw [alterMap_cons, if_neg ha, lookupMap_cons, lookupMap_cons, ih]

theorem keysOf_cons {α : Type} (a : String) (b : α) (t : RMap α) :
    keysOf ((a, b) :: t) = a :: keysOf t := rfl

/-- `alter` never changes the key set. -/
theorem keysOf_alterMap {α : Type} (k : String) (v : α) (m : RMap α) :
    keysOf (alterMap k v m) = keysOf m := by
  induction m with
  | nil => rfl
  | cons e t ih =>
    obtain ⟨a, b⟩ := e
    by_cases ha : a = k
    · subst ha
      rw [alterMap_cons, if_pos rfl, keysOf_cons, keysOf_cons, ih]
    · rw [alterMap_cons, if_neg ha, keysOf_cons, keysOf_cons, ih]

theorem lookupMap_append_single_self {α : Type} {k : String} (v : α)
    {m : RMap α} (h : lookupMap k m = none) :
    lookupMap k (m ++ [(k, v)]) = some v := by
  induction m with
  | nil => simp [lookupMap]
  | cons e t ih =>
    obtain ⟨a, b⟩ := e
    rw [lookupMap_cons] at h
    by_cases ha : a = k
    · rw [if_pos ha] at h
      exact absurd h (by simp)
    · rw [if_neg ha] at h
      rw [List.cons_append, lookupMap_cons, if_neg ha]
      exact ih h

/-- `insert` stores its value at its key. -/
theorem lookupMap_insertMap_self {α : Type} (k : String) (v : α) (m : RMap α) :
    lookupMap k (insertMap k v m) = some v := by
  by_cases h : containsKey k m
  · simpa [insertMap, h] using lookupMap_alterMap_self v (m := m) h
  · have h' : lookupMap k m = none :=
      (containsKey_false_iff k m).mp (by simpa using h)
    simp only [insertMap]
    rw [if_neg (by simp [containsKey, h'])]
    exact lookupMap_append_single_self v h'

theorem lookupMap_append_single_ne {α : Type} {k k' : String} (v : α)
    (m : RMap α) (h : k' ≠ k) :
    lookupMap k' (m ++ [(k, v)]) = lookupMap k' m := by
  induction m with
  | nil =>
    show lookupMap k' [(k, v)] = lookupMap k' []
    rw [lookupMap_cons, if_neg (fun hk => h hk.symm)]
  | cons e t ih =>
    obtain ⟨a, b⟩ := e
    rw [List.cons_append, lookupMap_cons, lookupMap_cons, ih]

/-- `insert` for `k` does not disturb any other key. -/
theorem lookupMap_insertMap_ne {α : Type} {k k' : String} (v : α) (m : RMap α)
    (h : k' ≠ k) : lookupMap k' (insertMap k v m) = lookupMap k' m := by
  by_cases hc : containsKey k m
  · simpa [insertMap, hc] using lookupMap_alterMap_ne v m h
  · simp only [insertMap]
    rw [if_neg (by simp [hc])]
    exact lookupMap_append_single_ne v m h

theorem mem_keysOf_iff {α : Type} (k : String) (m : RMap α) :
    k ∈ keysOf m ↔ containsKey k m = true := by
  rw [containsKey_true_iff]
  induction m with
  | nil => simp [keysOf, lookupMap]
  | cons e t ih =>
    obtain ⟨a, b⟩ := e
    rw [keysOf_cons]
    simp only [lookupMap_cons]
    by_cases ha : a = k
    · subst ha
      simp
    · simp [List.mem_cons, ha, Ne.symm ha, ih]

theorem keysOf_append {α : Type} (m m' : RMap α) :
    keysOf (m ++ m') = keysOf m ++ keysOf m' := by
  unfold keysOf
  rw [List.map_append]

/-- `insert` on an absent key appends exactly that key. -/
theorem keysOf_insertMap_absent {α : Type} {k : String} (v : α) {m : RMap α}
    (h : containsKey k m = false) :
    keysOf (insertMap k v m) = keysOf m ++ [k] := by
  unfold insertMap
  rw [if_neg (by simp [h]), keysOf_append]
  rfl

/-- `insert` on a present key keeps the key set. -/
theorem keysOf_insertMap_present {α : Type} {k : String} (v : α) {m : RMap α}
    (h : containsKey k m = true) :
    keysOf (insertMap k v m) = keysOf m := by
  unfold insertMap
  rw [if_pos h]
  exact keysOf_alterMap k v m

theorem countKey_cons {α : Type} (k a : String) (b : α) (t : RMap α) :
    countKey k ((a, b) :: t) = (if a = k then 1 else 0) + countKey k t := by
  unfold countKey
  by_cases ha : a = k
  · rw [if_pos ha]
    rw [List.filter_cons_of_pos (by simpa using ha)]
    simp [Nat.add_comm]
  · rw [if_neg ha]
    rw [List.filter_cons_of_neg (by simpa using ha)]
    simp

theorem countKey_eq_zero_iff {α : Type} (k : String) (m : RMap α) :
    countKey k m = 0 ↔ lookupMap k m = none := by
  induction m with
  | nil => simp [countKey, lookupMap]
  | cons e t ih =>
    obtain ⟨a, b⟩ := e
    rw [countKey_cons, lookupMap_cons]
    by_cases ha : a = k
    · simp [ha]
    · simp [ha, ih]

theorem countKey_alterMap {α : Type} (k' k : String) (v : α) (m : RMap α) :
    countKey k' (alterMap k v m) = countKey k' m := by
  induction m with
  | nil => rfl
  | cons e t ih =>
    obtain ⟨a, b⟩ := e
    by_cases ha : a = k
    · subst ha
      rw [alterMap_cons, if_pos rfl, countKey_cons, countKey_cons, ih]
    · rw [alterMap_cons, if_neg ha, countKey_cons, countKey_cons, ih]

theorem countKey_append_single {α : Type} (k : String) (v : α) (m : RMap α) :
    countKey k (m ++ [(k, v)]) = countKey k m + 1 := by
  unfold countKey
  rw [List.filter_append]
  simp

/-- Inserting keeps the per-key entry count at most one. -/
theorem countKey_insertMap {α : Type} (k' k : String) (v : α) (m : RMap α) :
    countKey k' (insertMap k v m) ≤ max 1 (countKey k' m) := by
  by_cases h : containsKey k m
  · unfold insertMap
    rw [if_pos h]
    have := countKey_alterMap k' k v m
    unfold alterMap at this
    rw [this]
    exact Nat.le_max_right 1 _
  · unfold insertMap
    rw [if_neg (by simp [h])]
    by_cases hk : k = k'
    · subst hk
      rw [countKey_append_single]
      have h0 : countKey k m = 0 := by
        rw [countKey_eq_zero_iff]
        exact (containsKey_false_iff k m).mp (by simpa using h)
      rw [h0]
      exact Nat.le_max_left 1 _
    · unfold countKey
      rw [List.filter_append]
      have : List.filter (fun e => decide (e.1 = k')) [(k, v)] = [] := by
        simp [hk]
      rw [this, List.append_nil]
      exact Nat.le_max_right 1 _

/-! ## The two global maps, the set routes and `run` -/

/-- The JSON body shape of a set request (`struct PostData<T>`). -/
structure PostData (α : Type) where
  key : String
  value : α

/-- The two `lazy_static` global maps `__F64S` and `__BOOLS`
(src/lib.rs:112-117).  The float scalar type is a parameter `F`: the
code stores and copies `f64` values without computing with them. -/
structure TweakerState (F : Type) where
  __F64S : RMap F
  __BOOLS : RMap Bool

/-- A route handler either produces an HTTP status plus the new global
state, or panics (Rust `.expect`), modelled as `Except` carrying the
panic message. -/
abbrev HandlerResult (F : Type) := Except String (Nat × TweakerState F)

/-- `handle_set_f64` (src/lib.rs:227-232): the JSON body is decoded with
`.expect("Could not decode JSON")` — a panic on parse failure, modelled
as the error branch.  On success, `__F64S.alter(&key, |_, _| value)` and
a 200 response.  The `Option` argument is the outcome of the external
JSON parse: `none` for a malformed body. -/
def handle_set_f64 {F : Type} (body : Option (PostData F))
    (s : TweakerState F) : HandlerResult F :=
  match body with
  | none => Except.error "Could not decode JSON"
  | some post_data =>
      Except.ok (200, { s with __F64S := alterMap post_data.key post_data.value s.__F64S })

/-- `handle_set_bool` (src/lib.rs:234-239): same shape on `__BOOLS`. -/
def handle_set_bool {F : Type} (body : Option (PostData Bool))
    (s : TweakerState F) : HandlerResult F :=
  match body with
  | none => Except.error "Could not decode JSON"
  | some post_data =>
      Except.ok (200, { s with __BOOLS := alterMap post_data.key post_data.value s.__BOOLS })

/-- The `tweak!`-generated accessor of a float constant, acting on the
global state: reads/seeds `__F64S` and leaves `__BOOLS` untouched. -/
def getF64 {F : Type} (k : String) (d : F) (s : TweakerState F) :
    F × TweakerState F :=
  let r := tweakGet k d s.__F64S
  (r.1, { s with __F64S := r.2 })

/-- The `tweak!`-generated accessor of a bool constant, acting on the
global state: reads/seeds `__BOOLS` and leaves `__F64S` untouched. -/
def getBool {F : Type} (k : String) (d : Bool) (s : TweakerState F) :
    Bool × TweakerState F :=
  let r := tweakGet k d s.__BOOLS
  (r.1, { s with __BOOLS := r.2 })

/-- Outcome of the background server thread spawned by `run`. -/
inductive ThreadOutcome where
  | completed
  | panicked (msg : String)
deriving DecidableEq

/-- The body of the thread spawned by `run` (src/lib.rs:128-142):
`task::block_on(... app.listen("127.0.0.1:9938") ...)` followed by
`.expect("Running web server failed")` — the listen outcome is a
parameter (the network is external), and a listen error becomes a
panic of the thread. -/
def serverThread (listenResult : Except String Unit) : ThreadOutcome :=
  match listenResult with
  | Except.ok _ => ThreadOutcome.completed
  | Except.error _ => ThreadOutcome.panicked "Running web server failed"

/-- `run` (src/lib.rs:128-142): spawns the server thread and then
returns `Ok(())` unconditionally — the listen outcome never reaches
`run`'s own return value.  The model returns the pair (run's result,
the eventual outcome of the spawned thread). -/
def run (listenResult : Except String Unit) :
    Except String Unit × ThreadOutcome :=
  (Except.ok (), serverThread listenResult)

/-! ## Claim theorems: registry semantics -/

/-- Claim C1: first-touch default semantics.  With no entry for `k`,
`getOrInsertDefault(k, d1)` then `getOrInsertDefault(k, d2)` (with
`d1 ≠ d2`) return `d1` both times, the stored value after both calls is
`d1`, and the second call leaves the map untouched (its default is
ignored entirely). -/
theorem first_touch_default_semantics {α : Type} (k : String) (d1 d2 : α)
    (m : RMap α) (_hne : d1 ≠ d2) (habs : containsKey k m = false) :
    (tweakGet k d1 m).1 = d1 ∧
    (tweakGet k d2 (tweakGet k d1 m).2).1 = d1 ∧
    lookupMap k (tweakGet k d2 (tweakGet k d1 m).2).2 = some d1 ∧
    (tweakGet k d2 (tweakGet k d1 m).2).2 = (tweakGet k d1 m).2 := by
  have h0 : lookupMap k m = none := (containsKey_false_iff k m).mp habs
  have h1 : tweakGet k d1 m = (d1, insertMap k d1 m) := by
    unfold tweakGet
    rw [h0]
  have h2 : lookupMap k (insertMap k d1 m) = some d1 :=
    lookupMap_insertMap_self k d1 m
  have h3 : tweakGet k d2 (insertMap k d1 m) = (d1, insertMap k d1 m) := by
    unfold tweakGet
    rw [h2]
  rw [h1]
  simp only [h3]
  exact ⟨trivial, trivial, h2, trivial⟩

/-- Witness for C1 at `k = "key"`, `d1 = 0`, `d2 = 1`, empty map. -/
theorem first_touch_default_semantics_witness :
    (tweakGet "key" (0 : Nat) []).1 = 0 ∧
    (tweakGet "key" 1 (tweakGet "key" (0 : Nat) []).2).1 = 0 ∧
    lookupMap "key" (tweakGet "key" 1 (tweakGet "key" (0 : Nat) []).2).2
      = some 0 ∧
    (tweakGet "key" 1 (tweakGet "key" (0 : Nat) []).2).2
      = (tweakGet "key" (0 : Nat) []).2 :=
  first_touch_default_semantics "key" 0 1 [] (by decide) (by decide)

/-- Claim C2: a set on a never-read key is a no-op.  With no entry for
`k` in the respective map, both set handlers acknowledge with 200 while
leaving the whole global state exactly as it was, and a subsequent
`getOrInsertDefault(k, d)` still returns the default `d` — never the
dropped `v`. -/
theorem set_unseen_is_noop {F : Type} (s : TweakerState F) (k : String)
    (v d : F) (vb db : Bool)
    (hf : containsKey k s.__F64S = false)
    (hb : containsKey k s.__BOOLS = false) :
    handle_set_f64 (some ⟨k, v⟩) s = Except.ok (200, s) ∧
    handle_set_bool (some ⟨k, vb⟩) s = Except.ok (200, s) ∧
    (tweakGet k d s.__F64S).1 = d ∧
    (tweakGet k db s.__BOOLS).1 = db ∧
    (v ≠ d → (tweakGet k d s.__F64S).1 ≠ v) := by
  have h0 : lookupMap k s.__F64S = none := (containsKey_false_iff k _).mp hf
  have h0b : lookupMap k s.__BOOLS = none := (containsKey_false_iff k _).mp hb
  have hget : (tweakGet k d s.__F64S).1 = d := by
    unfold tweakGet
    rw [h0]
  refine ⟨?_, ?_, hget, ?_, ?_⟩
  · simp [handle_set_f64, alterMap_absent v hf]
  · simp [handle_set_bool, alterMap_absent vb hb]
  · unfold tweakGet
    rw [h0b]
  · intro hvd
    rw [hget]
    exact fun hdv => hvd hdv.symm

/-- Witness for C2 at `k = "p"`, `v = 7`, `d = 3` on a state holding an
unrelated entry. -/
theorem set_unseen_is_noop_witness :
    handle_set_f64 (some ⟨"p", 7⟩)
      (⟨[("q", 1)], [("r", true)]⟩ : TweakerState Nat)
      = Except.ok (200, ⟨[("q", 1)], [("r", true)]⟩) ∧
    handle_set_bool (some ⟨"p", false⟩)
      (⟨[("q", 1)], [("r", true)]⟩ : TweakerState Nat)
      = Except.ok (200, ⟨[("q", 1)], [("r", true)]⟩) ∧
    (tweakGet "p" 3 (([("q", 1)] : RMap Nat))).1 = 3 ∧
    (tweakGet "p" true ([("r", true)] : RMap Bool)).1 = true ∧
    ((7 : Nat) ≠ 3 → (tweakGet "p" 3 (([("q", 1)] : RMap Nat))).1 ≠ 7) :=
  set_unseen_is_noop ⟨[("q", 1)], [("r", true)]⟩ "p" 7 3 false true
    (by decide) (by decide)

/-- Claim C3: a set on a seeded key overwrites.  If `k` already has an
entry in the float map, `handle_set_f64` stores `v` there and every
subsequent `getOrInsertDefault(k, d)` — whatever the default — returns
`v`. -/
theorem set_seeded_overwrites {F : Type} (s : TweakerState F) (k : String)
    (v : F) (hf : containsKey k s.__F64S = true) :
    ∃ s', handle_set_f64 (some ⟨k, v⟩) s = Except.ok (200, s') ∧
      lookupMap k s'.__F64S = some v ∧
      ∀ d, (tweakGet k d s'.__F64S).1 = v := by
  refine ⟨{ s with __F64S := alterMap k v s.__F64S }, rfl, ?_, ?_⟩
  · exact lookupMap_alterMap_self v hf
  · intro d
    show (tweakGet k d (alterMap k v s.__F64S)).1 = v
    unfold tweakGet
    rw [lookupMap_alterMap_self v hf]

/-- Witness for C3: seed `"g"` with 9, then set it to 3 and read it
back with default 5. -/
theorem set_seeded_overwrites_witness :
    ∃ s', handle_set_f64 (some ⟨"g", 3⟩)
        (⟨[("g", 9)], []⟩ : TweakerState Nat) = Except.ok (200, s') ∧
      lookupMap "g" s'.__F64S = some 3 ∧
      ∀ d, (tweakGet "g" d s'.__F64S).1 = 3 :=
  set_seeded_overwrites ⟨[("g", 9)], []⟩ "g" 3 (by decide)

/-- Claim C10: per-key locality of mutation.  Both the accessor
(`tweakGet`) and the set path (`alterMap`, as called by the handlers)
leave every entry whose key differs from `k` unchanged. -/
theorem per_key_locality {α : Type} (k k' : String) (d v : α) (m : RMap α)
    (h : k' ≠ k) :
    lookupMap k' (tweakGet k d m).2 = lookupMap k' m ∧
    lookupMap k' (alterMap k v m) = lookupMap k' m := by
  constructor
  · unfold tweakGet
    cases hl : lookupMap k m with
    | some w => rfl
    | none => exact lookupMap_insertMap_ne d m h
  · exact lookupMap_alterMap_ne v m h

/-- Witness for C10: mutating `"a"` leaves `"b"` untouched. -/
theorem per_key_locality_witness :
    lookupMap "b" (tweakGet "a" (5 : Nat) [("b", 2)]).2 = lookupMap "b" [("b", 2)] ∧
    lookupMap "b" (alterMap "a" (5 : Nat) [("b", 2)]) = lookupMap "b" [("b", 2)] :=
  per_key_locality "a" "b" 5 5 [("b", 2)] (by decide)

/-- Claim C7: cross-type key independence.  The float accessor and the
float set route only touch `__F64S`; the bool accessor and the bool set
route only touch `__BOOLS` — even when both maps use the same key
string. -/
theorem cross_type_key_independence {F : Type} (s : TweakerState F)
    (k : String) (d : F) (db : Bool) (pf : PostData F) (pb : PostData Bool) :
    (getF64 k d s).2.__BOOLS = s.__BOOLS ∧
    (getBool k db s).2.__F64S = s.__F64S ∧
    Except.map (fun r => r.2.__BOOLS) (handle_set_f64 (some pf) s)
      = Except.ok s.__BOOLS ∧
    Except.map (fun r => r.2.__F64S) (handle_set_bool (some pb) s)
      = Except.ok s.__F64S := by
  refine ⟨rfl, rfl, rfl, rfl⟩

/-! ## Claim C8: entry lifecycle over arbitrary operation sequences -/

/-- One operation on one type's map: the `tweak!` accessor (`get`), a
set-route write (`set`, via `DashMap::alter`), or the renderer's
read-only iteration (`snapshot`). -/
inductive RegOp (α : Type) where
  | get (k : String) (d : α)
  | set (k : String) (v : α)
  | snapshot

/-- The effect of one operation on the map. -/
def applyOp {α : Type} : RegOp α → RMap α → RMap α
  | RegOp.get k d, m => (tweakGet k d m).2
  | RegOp.set k v, m => alterMap k v m
  | RegOp.snapshot, m => m

/-- No operation removes an entry. -/
theorem containsKey_mono_applyOp {α : Type} (op : RegOp α) (m : RMap α)
    (k' : String) (h : containsKey k' m = true) :
    containsKey k' (applyOp op m) = true := by
  cases op with
  | get k d =>
    show containsKey k' (tweakGet k d m).2 = true
    unfold tweakGet
    cases hl : lookupMap k m with
    | some w => exact h
    | none =>
      by_cases hk : k' = k
      · subst hk
        rw [containsKey_true_iff]
        exact ⟨d, lookupMap_insertMap_self k' d m⟩
      · rw [containsKey_true_iff] at h ⊢
        obtain ⟨w, hw⟩ := h
        exact ⟨w, by rw [lookupMap_insertMap_ne d m hk]; exact hw⟩
  | set k v =>
    show containsKey k' (alterMap k v m) = true
    by_cases hk : k' = k
    · subst hk
      rw [containsKey_true_iff]
      exact ⟨v, lookupMap_alterMap_self v h⟩
    · rw [containsKey_true_iff] at h ⊢
      obtain ⟨w, hw⟩ := h
      exact ⟨w, by rw [lookupMap_alterMap_ne v m hk]; exact hw⟩
  | snapshot => exact h

/-- No operation introduces a duplicate key. -/
theorem nodup_applyOp {α : Type} (op : RegOp α) (m : RMap α)
    (h : (keysOf m).Nodup) : (keysOf (applyOp op m)).Nodup := by
  cases op with
  | get k d =>
    show (keysOf (tweakGet k d m).2).Nodup
    unfold tweakGet
    cases hl : lookupMap k m with
    | some w => exact h
    | none =>
      have habs : containsKey k m = false := (containsKey_false_iff k m).mpr hl
      have hk : k ∉ keysOf m := fun hmem =>
        by rw [mem_keysOf_iff, habs] at hmem; exact absurd hmem (by simp)
      rw [keysOf_insertMap_absent d habs]
      simp [List.nodup_append, h, hk]
  | set k v =>
    show (keysOf (alterMap k v m)).Nodup
    rw [keysOf_alterMap]
    exact h
  | snapshot => exact h

/-- Entries survive any sequence of operations. -/
theorem containsKey_foldl_applyOp {α : Type} (ops : List (RegOp α))
    (m : RMap α) (k' : String) (h : containsKey k' m = true) :
    containsKey k' (ops.foldl (fun mm o => applyOp o mm) m) = true := by
  induction ops generalizing m with
  | nil => exact h
  | cons o t ih => exact ih _ (containsKey_mono_applyOp o m k' h)

/-- Claim C8: registry entry lifecycle invariant.  At most one entry per
key is preserved by every operation; no operation deletes an entry; a
`set` never creates an entry; a `get` on an existing key changes nothing
(so an entry is created at most once, by the first read); a `get` on a
missing key adds exactly that key; over any operation sequence the key
set only grows. -/
theorem registry_entry_lifecycle {α : Type} (m : RMap α) (k k' : String)
    (d v : α) (op : RegOp α) :
    ((keysOf m).Nodup → (keysOf (applyOp op m)).Nodup) ∧
    (containsKey k' m = true → containsKey k' (applyOp op m) = true) ∧
    keysOf (applyOp (RegOp.set k v) m) = keysOf m ∧
    (containsKey k m = true → applyOp (RegOp.get k d) m = m) ∧
    (containsKey k m = false →
      keysOf (applyOp (RegOp.get k d) m) = keysOf m ++ [k]) ∧
    (∀ ops : List (RegOp α), containsKey k' m = true →
      containsKey k' (ops.foldl (fun mm o => applyOp o mm) m) = true) := by
  refine ⟨nodup_applyOp op m, containsKey_mono_applyOp op m k', ?_, ?_, ?_, ?_⟩
  · exact keysOf_alterMap k v m
  · intro h
    obtain ⟨w, hw⟩ := (containsKey_true_iff k m).mp h
    show (tweakGet k d m).2 = m
    unfold tweakGet
    rw [hw]
  · intro h
    show keysOf (tweakGet k d m).2 = keysOf m ++ [k]
    unfold tweakGet
    rw [(containsKey_false_iff k m).mp h]
    exact keysOf_insertMap_absent d h
  · exact fun ops => containsKey_foldl_applyOp ops m k'

/-- Witness for C8 on a one-entry map, exercising both the present-key
and the absent-key hypotheses. -/
theorem registry_entry_lifecycle_witness :
    (keysOf (applyOp (RegOp.get "b" (2 : Nat)) [("a", 1)])).Nodup ∧
    containsKey "a" (applyOp (RegOp.get "b" (2 : Nat)) [("a", 1)]) = true ∧
    applyOp (RegOp.get "a" (7 : Nat)) [("a", 1)] = [("a", 1)] ∧
    keysOf (applyOp (RegOp.get "b" (2 : Nat)) [("a", 1)])
      = keysOf [("a", (1 : Nat))] ++ ["b"] ∧
    containsKey "a"
      ([RegOp.set "a" 9, RegOp.get "c" 0].foldl
        (fun mm o => applyOp o mm) [("a", (1 : Nat))]) = true := by
  have h1 := registry_entry_lifecycle [("a", (1 : Nat))] "b" "a" 2 5
    (RegOp.get "b" 2)
  have h2 := registry_entry_lifecycle [("a", (1 : Nat))] "a" "a" 7 5
    (RegOp.get "b" 2)
  exact ⟨h1.1 (by decide), h1.2.1 (by decide),
    h2.2.2.2.1 (by decide), h1.2.2.2.2.1 (by decide),
    h1.2.2.2.2.2 [RegOp.set "a" 9, RegOp.get "c" 0] (by decide)⟩

/-! ## Claim C6: the page renderer (`f64s`, `bools`, src/lib.rs:165-216)

The horrorshow templates build structured markup before serialisation;
the embedding keeps that structure as a tree. -/

/-- Markup tree: an element with tag, attributes and children, or text. -/
inductive Html where
  | elem (tag : String) (attrs : List (String × String)) (children : List Html)
  | text (s : String)

mutual

/-- Number of elements in a tree whose tag/attributes satisfy `p`. -/
def countElem (p : String → List (String × String) → Bool) : Html → Nat
  | Html.text _ => 0
  | Html.elem t a c => (if p t a then 1 else 0) + countElemList p c

/-- Number of elements across a fragment (list of trees) satisfying `p`. -/
def countElemList (p : String → List (String × String) → Bool) :
    List Html → Nat
  | [] => 0
  | h :: rest => countElem p h + countElemList p rest

end

mutual

/-- Every element satisfying `p` also satisfies `q`. -/
def allElems (p q : String → List (String × String) → Bool) : Html → Bool
  | Html.text _ => true
  | Html.elem t a c => (!(p t a) || q t a) && allElemsList p q c

/-- `allElems` over a fragment. -/
def allElemsList (p q : String → List (String × String) → Bool) :
    List Html → Bool
  | [] => true
  | h :: rest => allElems p q h && allElemsList p q rest

end

/-- A slider: an `input` element with `type="range"`. -/
def isRangeInput (t : String) (a : List (String × String)) : Bool :=
  t == "input" && a.contains ("type", "range")

/-- A checkbox: an `input` element with `type="checkbox"`. -/
def isCheckbox (t : String) (a : List (String × String)) : Bool :=
  t == "input" && a.contains ("type", "checkbox")

/-- The hardcoded slider bounds `min="-100"`, `max="100"`. -/
def hasFixedRange (_t : String) (a : List (String × String)) : Bool :=
  a.contains ("min", "-100") && a.contains ("max", "100")

/-- A single-quote character, as it appears in the generated JS call. -/
def quoteChar : String := String.singleton (Char.ofNat 39)

/-- `send` (src/lib.rs:219-224): the JS call wired into each control. -/
def send (key look_for data_type : String) : String :=
  "send(" ++ quoteChar ++ key ++ quoteChar ++ ", " ++ look_for ++ ", "
    ++ quoteChar ++ data_type ++ quoteChar ++ ")"

/-- Rust `bool::to_string`. -/
def boolString (b : Bool) : String :=
  if b then "true" else "false"

/-- One float row of `f64s` (src/lib.rs:165-192): key tag, range input
with the fixed [-100, 100] bounds and the current value, value label.
`showF` is the external `Display` rendering of the float scalar. -/
def f64Row {F : Type} (showF : F → String) (e : String × F) : Html :=
  Html.elem "div" [("class", "columns box")] [
    Html.elem "div" [("class", "column is-narrow")] [
      Html.elem "span" [("class", "tag")] [Html.text e.1]],
    Html.elem "div" [("class", "column")] [
      Html.elem "input" [("type", "range"), ("id", e.1), ("min", "-100"),
        ("max", "100"), ("defaultValue", showF e.2), ("style", "width: 100%"),
        ("oninput", send e.1 "Number(this.value)" "f64")] []],
    Html.elem "div" [("class", "column is-narrow")] [
      Html.elem "span" [("id", e.1 ++ "_label"), ("class", "is-small")] [
        Html.text (showF e.2)]]]

/-- `f64s` (src/lib.rs:165-192): one row per entry of the float map. -/
def f64s {F : Type} (showF : F → String) (m : RMap F) : List Html :=
  m.map (f64Row showF)

/-- One bool row of `bools` (src/lib.rs:194-216): key tag, checkbox
carrying the current value, value label. -/
def boolRow (e : String × Bool) : Html :=
  Html.elem "div" [("class", "columns box")] [
    Html.elem "div" [("class", "column is-narrow")] [
      Html.elem "span" [("class", "tag")] [Html.text e.1]],
    Html.elem "div" [("class", "column")] [
      Html.elem "input" [("type", "checkbox"), ("id", e.1),
        ("value", boolString e.2),
        ("onclick", send e.1 "this.checked" "bool")] []],
    Html.elem "div" [("class", "column is-narrow")] [
      Html.elem "span" [("id", e.1 ++ "_label")] [
        Html.text (boolString e.2)]]]

/-- `bools` (src/lib.rs:194-216): one row per entry of the bool map. -/
def bools (m : RMap Bool) : List Html :=
  m.map boolRow

/-- The key label of a row (the text of its leading tag span). -/
def rowKey : Html → Option String
  | Html.elem _ _ (Html.elem _ _ (Html.elem _ _ [Html.text k] :: _) :: _) =>
      some k
  | _ => none

/-- The value label of a row (the text of its trailing label span). -/
def rowLabel : Html → Option String
  | Html.elem _ _ [_, _, Html.elem _ _ [Html.elem _ _ [Html.text s]]] =>
      some s
  | _ => none

theorem countElem_f64Row_range {F : Type} (showF : F → String)
    (e : String × F) : countElem isRangeInput (f64Row showF e) = 1 := by
  simp [f64Row, countElem, countElemList, isRangeInput]

theorem countElem_f64Row_checkbox {F : Type} (showF : F → String)
    (e : String × F) : countElem isCheckbox (f64Row showF e) = 0 := by
  simp [f64Row, countElem, countElemList, isCheckbox]

theorem countElem_boolRow_range (e : String × Bool) :
    countElem isRangeInput (boolRow e) = 0 := by
  simp [boolRow, countElem, countElemList, isRangeInput]

theorem countElem_boolRow_checkbox (e : String × Bool) :
    countElem isCheckbox (boolRow e) = 1 := by
  simp [boolRow, countElem, countElemList, isCheckbox]

theorem allElems_f64Row_fixedRange {F : Type} (showF : F → String)
    (e : String × F) :
    allElems isRangeInput hasFixedRange (f64Row showF e) = true := by
  simp [f64Row, allElems, allElemsList, isRangeInput, hasFixedRange]

theorem rowKey_f64Row {F : Type} (showF : F → String) (e : String × F) :
    rowKey (f64Row showF e) = some e.1 := rfl

theorem rowLabel_f64Row {F : Type} (showF : F → String) (e : String × F) :
    rowLabel (f64Row showF e) = some (showF e.2) := rfl

theorem rowKey_boolRow (e : String × Bool) :
    rowKey (boolRow e) = some e.1 := rfl

theorem rowLabel_boolRow (e : String × Bool) :
    rowLabel (boolRow e) = some (boolString e.2) := rfl

theorem countElemList_f64s_range {F : Type} (showF : F → String)
    (fs : RMap F) :
    countElemList isRangeInput (f64s showF fs) = fs.length := by
  induction fs with
  | nil => rfl
  | cons e t ih =>
    simp [f64s, countElemList, countElem_f64Row_range] at ih ⊢
    omega

theorem countElemList_f64s_checkbox {F : Type} (showF : F → String)
    (fs : RMap F) :
    countElemList isCheckbox (f64s showF fs) = 0 := by
  induction fs with
  | nil => rfl
  | cons e t ih =>
    simp [f64s, countElemList, countElem_f64Row_checkbox] at ih ⊢
    exact ih

theorem countElemList_bools_checkbox (bs : RMap Bool) :
    countElemList isCheckbox (bools bs) = bs.length := by
  induction bs with
  | nil => rfl
  | cons e t ih =>
    simp [bools, countElemList, countElem_boolRow_checkbox] at ih ⊢
    omega

theorem countElemList_bools_range (bs : RMap Bool) :
    countElemList isRangeInput (bools bs) = 0 := by
  induction bs with
  | nil => rfl
  | cons e t ih =>
    simp [bools, countElemList, countElem_boolRow_range] at ih ⊢
    exact ih

theorem allElemsList_f64s_fixedRange {F : Type} (showF : F → String)
    (fs : RMap F) :
    allElemsList isRangeInput hasFixedRange (f64s showF fs) = true := by
  induction fs with
  | nil => rfl
  | cons e t ih =>
    simp [f64s, allElemsList, allElems_f64Row_fixedRange] at ih ⊢
    exact ih

/-- Claim C6: renderer correctness.  For every registry snapshot the
float fragment has exactly one range input per float entry (and no
checkbox), every range input carries the fixed bounds `min="-100"`,
`max="100"` whatever the value; the bool fragment has exactly one
checkbox per bool entry (and no slider); each row is labeled with its
key and shows the stored value of its entry at snapshot time; an empty
snapshot renders zero rows. -/
theorem renderer_correct {F : Type} (showF : F → String) (fs : RMap F)
    (bs : RMap Bool) :
    countElemList isRangeInput (f64s showF fs) = fs.length ∧
    countElemList isCheckbox (f64s showF fs) = 0 ∧
    countElemList isCheckbox (bools bs) = bs.length ∧
    countElemList isRangeInput (bools bs) = 0 ∧
    allElemsList isRangeInput hasFixedRange (f64s showF fs) = true ∧
    (f64s showF fs).map rowKey = fs.map (fun e => some e.1) ∧
    (f64s showF fs).map rowLabel = fs.map (fun e => some (showF e.2)) ∧
    (bools bs).map rowKey = bs.map (fun e => some e.1) ∧
    (bools bs).map rowLabel = bs.map (fun e => some (boolString e.2)) ∧
    f64s showF ([] : RMap F) = [] ∧
    bools ([] : RMap Bool) = [] := by
  refine ⟨countElemList_f64s_range showF fs,
    countElemList_f64s_checkbox showF fs,
    countElemList_bools_checkbox bs,
    countElemList_bools_range bs,
    allElemsList_f64s_fixedRange showF fs, ?_, ?_, ?_, ?_, rfl, rfl⟩
  · simp [f64s, rowKey_f64Row]
  · simp [f64s, rowLabel_f64Row]
  · simp [bools, rowKey_boolRow]
  · simp [bools, rowLabel_boolRow]

/-! ## Claims C4 and C5: error handling of the control plane -/

/-- Claim C4 (evaluation): on a malformed request body the set handlers
do not produce an error response — `request.body_json().await.expect(
"Could not decode JSON")` panics, so the handler's outcome is the
`expect` panic and never any HTTP response.  This contradicts the
claimed request-level error response. -/
theorem malformed_body_panics {F : Type} (s : TweakerState F) :
    handle_set_f64 (none : Option (PostData F)) s
      = Except.error "Could not decode JSON" ∧
    handle_set_bool (none : Option (PostData Bool)) s
      = Except.error "Could not decode JSON" ∧
    (handle_set_f64 (none : Option (PostData F)) s).isOk = false ∧
    (handle_set_bool (none : Option (PostData Bool)) s).isOk = false := by
  exact ⟨rfl, rfl, rfl, rfl⟩

/-- Claim C5 (evaluation): a listener startup failure is never surfaced
through `run`'s return value.  `run` returns `Ok(())` unconditionally
(the spawn happens first, the result is built independently of the
listen outcome), while the spawned thread turns the listen error into
the panic `"Running web server failed"`.  So the caller of `run` gets a
success result even when the address is already in use. -/
theorem run_swallows_listen_failure (e : String) :
    run (Except.error e)
      = (Except.ok (), ThreadOutcome.panicked "Running web server failed") ∧
    (run (Except.error e)).1 = Except.ok () := by
  exact ⟨rfl, rfl⟩

/-! ## Claim C9: concurrent first access

The accessor (src/lib.rs:68-82) performs two separately-atomic `DashMap`
operations: a `get`, then — only after a miss — an `insert` of the
default.  A caller is therefore in one of three local states; a
schedule is an arbitrary interleaving of these atomic operations by any
number of callers sharing the same key and default. -/

/-- Local state of one caller of the accessor for key `k`: not yet
read, read a miss (insert still pending), or returned with a value. -/
inductive CallerState (α : Type) where
  | start
  | sawNone
  | done (ret : α)
deriving DecidableEq

/-- Global configuration: the shared map and every caller's state. -/
structure Config (α : Type) where
  map : RMap α
  callers : List (CallerState α)

/-- One atomic interleaved step of the racing accessors: caller `i`
performs its next atomic map operation (`DashMap::get` hitting or
missing, or the pending `DashMap::insert` of the default). -/
inductive AccessStep {α : Type} (k : String) (d : α) :
    Config α → Config α → Prop where
  | readHit (i : Nat) (v : α) (c : Config α)
      (hc : c.callers.get? i = some CallerState.start)
      (hl : lookupMap k c.map = some v) :
      AccessStep k d c ⟨c.map, c.callers.set i (CallerState.done v)⟩
  | readMiss (i : Nat) (c : Config α)
      (hc : c.callers.get? i = some CallerState.start)
      (hl : lookupMap k c.map = none) :
      AccessStep k d c ⟨c.map, c.callers.set i CallerState.sawNone⟩
  | insertStep (i : Nat) (c : Config α)
      (hc : c.callers.get? i = some CallerState.sawNone) :
      AccessStep k d c
        ⟨insertMap k d c.map, c.callers.set i (CallerState.done d)⟩

/-- Inductive invariant of the race: the entry for `k` is either still
absent or already holds `d` (never anything else, and never
duplicated); other keys are untouched; every finished caller returned
`d`; and once any caller has finished, the entry holds `d`. -/
def GoodConfig {α : Type} (k : String) (d : α) (m0 : RMap α) (N : Nat)
    (c : Config α) : Prop :=
  c.callers.length = N ∧
  (lookupMap k c.map = none ∨ lookupMap k c.map = some d) ∧
  countKey k c.map ≤ 1 ∧
  (∀ k', k' ≠ k → lookupMap k' c.map = lookupMap k' m0) ∧
  (∀ st ∈ c.callers, ∀ r, st = CallerState.done r → r = d) ∧
  ((∃ st ∈ c.callers, ∃ r, st = CallerState.done r) →
    lookupMap k c.map = some d)

theorem goodConfig_step {α : Type} {k : String} {d : α} {m0 : RMap α}
    {N : Nat} {c c' : Config α} (hstep : AccessStep k d c c')
    (hg : GoodConfig k d m0 N c) : GoodConfig k d m0 N c' := by
  obtain ⟨hlen, hkd, hcnt, hoth, hdone, hsome⟩ := hg
  cases hstep with
  | readHit i v c hc hl =>
    have hvd : v = d := by
      cases hkd with
      | inl h => rw [h] at hl; exact absurd hl (by simp)
      | inr h => rw [h] at hl; exact (Option.some_inj.mp hl).symm
    subst hvd
    refine ⟨by simpa using hlen, hkd, hcnt, hoth, ?_, fun _ => hl⟩
    intro st hst r hr
    rcases List.mem_or_eq_of_mem_set hst with hmem | hnew
    · exact hdone st hmem r hr
    · rw [hnew] at hr
      exact (CallerState.done.inj hr).symm
  | readMiss i c hc hl =>
    refine ⟨by simpa using hlen, hkd, hcnt, hoth, ?_, ?_⟩
    · intro st hst r hr
      rcases List.mem_or_eq_of_mem_set hst with hmem | hnew
      · exact hdone st hmem r hr
      · rw [hnew] at hr
        exact absurd hr (by simp)
    · intro hex
      obtain ⟨st, hst, r, hr⟩ := hex
      rcases List.mem_or_eq_of_mem_set hst with hmem | hnew
      · exact hsome ⟨st, hmem, r, hr⟩
      · rw [hnew] at hr
        exact absurd hr (by simp)
  | insertStep i c hc =>
    have hins : lookupMap k (insertMap k d c.map) = some d :=
      lookupMap_insertMap_self k d c.map
    refine ⟨by simpa using hlen, Or.inr hins, ?_, ?_, ?_, fun _ => hins⟩
    · have hmax := countKey_insertMap k k d c.map
      have h1 : max 1 (countKey k c.map) = 1 := Nat.max_eq_left hcnt
      rw [h1] at hmax
      exact hmax
    · intro k' hk'
      rw [lookupMap_insertMap_ne d c.map hk']
      exact hoth k' hk'
    · intro st hst r hr
      rcases List.mem_or_eq_of_mem_set hst with hmem | hnew
      · exact hdone st hmem r hr
      · rw [hnew] at hr
        exact (CallerState.done.inj hr).symm

theorem goodConfig_reach {α : Type} {k : String} {d : α} {m0 : RMap α}
    {N : Nat} {c c' : Config α}
    (h : Relation.ReflTransGen (AccessStep k d) c c')
    (hg : GoodConfig k d m0 N c) : GoodConfig k d m0 N c' := by
  induction h with
  | refl => exact hg
  | tail hsteps hstep ih => exact goodConfig_step hstep ih

theorem goodConfig_init {α : Type} (k : String) (d : α) (m0 : RMap α)
    (N : Nat) (h0 : containsKey k m0 = false) :
    GoodConfig k d m0 N ⟨m0, List.replicate N CallerState.start⟩ := by
  have hl0 : lookupMap k m0 = none := (containsKey_false_iff k m0).mp h0
  refine ⟨by simp, Or.inl hl0, ?_, fun _ _ => rfl, ?_, ?_⟩
  · rw [Nat.le_one_iff_eq_zero_or_eq_one]
    exact Or.inl ((countKey_eq_zero_iff k m0).mpr hl0)
  · intro st hst r hr
    have := List.eq_of_mem_replicate hst
    rw [this] at hr
    exact absurd hr (by simp)
  · intro hex
    obtain ⟨st, hst, r, hr⟩ := hex
    have := List.eq_of_mem_replicate hst
    rw [this] at hr
    exact absurd hr (by simp)

/-- Claim C9: atomic first-touch insert under concurrency.  If `N ≥ 1`
callers race the accessor for an unseen key `k` with the same default
`d`, then after any complete interleaving of their atomic map
operations the map holds exactly one entry for `k`, its value is `d`,
every caller returned `d`, and no other entry was created, lost or
changed. -/
theorem concurrent_first_touch {α : Type} (k : String) (d : α) (N : Nat)
    (m0 : RMap α) (c : Config α) (hN : 0 < N)
    (h0 : containsKey k m0 = false)
    (hreach : Relation.ReflTransGen (AccessStep k d)
      ⟨m0, List.replicate N CallerState.start⟩ c)
    (hdone : ∀ st ∈ c.callers, ∃ r, st = CallerState.done r) :
    lookupMap k c.map = some d ∧
    countKey k c.map = 1 ∧
    (∀ st ∈ c.callers, st = CallerState.done d) ∧
    (∀ k', k' ≠ k → lookupMap k' c.map = lookupMap k' m0) := by
  obtain ⟨hlen, _hkd, hcnt, hoth, hdval, hsome⟩ :=
    goodConfig_reach hreach (goodConfig_init k d m0 N h0)
  have hne : c.callers ≠ [] := by
    intro hnil
    rw [hnil] at hlen
    simp at hlen
    omega
  obtain ⟨st0, hst0⟩ := List.exists_mem_of_ne_nil c.callers hne
  obtain ⟨r0, hr0⟩ := hdone st0 hst0
  have hlk : lookupMap k c.map = some d := hsome ⟨st0, hst0, r0, hr0⟩
  have hcnt1 : countKey k c.map = 1 := by
    have hne0 : countKey k c.map ≠ 0 := by
      intro hz
      rw [countKey_eq_zero_iff] at hz
      rw [hz] at hlk
      exact absurd hlk (by simp)
    omega
  refine ⟨hlk, hcnt1, ?_, hoth⟩
  intro st hst
  obtain ⟨r, hr⟩ := hdone st hst
  rw [hr]
  rw [hdval st hst r hr]

/-- Witness for C9: two callers race on the unseen key `"k"`; both read
a miss before either inserts, both insert `0`, and the final map still
holds exactly one entry with value `0`. -/
theorem concurrent_first_touch_witness :
    lookupMap "k" [("k", (0 : Nat))] = some 0 ∧
    countKey "k" [("k", (0 : Nat))] = 1 ∧
    (∀ st ∈ [CallerState.done (0 : Nat), CallerState.done 0],
      st = CallerState.done 0) ∧
    (∀ k', k' ≠ "k" →
      lookupMap k' [("k", (0 : Nat))] = lookupMap k' ([] : RMap Nat)) := by
  have trace : Relation.ReflTransGen (AccessStep "k" (0 : Nat))
      ⟨[], [CallerState.start, CallerState.start]⟩
      ⟨[("k", 0)], [CallerState.done 0, CallerState.done 0]⟩ := by
    refine Relation.ReflTransGen.head
      (AccessStep.readMiss 0 ⟨[], [CallerState.start, CallerState.start]⟩
        rfl rfl) ?_
    refine Relation.ReflTransGen.head
      (AccessStep.readMiss 1 ⟨[], [CallerState.sawNone, CallerState.start]⟩
        rfl rfl) ?_
    refine Relation.ReflTransGen.head
      (AccessStep.insertStep 0
        ⟨[], [CallerState.sawNone, CallerState.sawNone]⟩ rfl) ?_
    refine Relation.ReflTransGen.head
      (AccessStep.insertStep 1
        ⟨[("k", 0)], [CallerState.done 0, CallerState.sawNone]⟩ rfl) ?_
    exact Relation.ReflTransGen.refl
  exact concurrent_first_touch "k" 0 2 []
    ⟨[("k", 0)], [CallerState.done 0, CallerState.done 0]⟩
    (by decide) (by decide) trace
    (by
      intro st hst
      rcases List.mem_cons.mp hst with h | h
      · exact ⟨0, h⟩
      · rcases List.mem_cons.mp h with h2 | h2
        · exact ⟨0, h2⟩
        · exact absurd h2 (by simp))
